import Mathlib

/-!
Shallow embedding of the databot frontend's chat/visualization pipeline
(`src/components/data-analysis-interface.tsx`, `src/components/data-visualization.tsx`,
`src/services/api.ts`).  JavaScript strings are modelled as `List Char`; the
JavaScript regular expressions used by the code are modelled by explicit
left-to-right scanners with the same match semantics (leftmost match, lazy or
greedy quantifiers as in the source, global replacement resuming after each
match).  `JSON.parse` is a host-runtime primitive, so chart-body parsing is
modelled as an abstract parameter `jp : List Char → Option ChartData`
(`some` = parse succeeded, `none` = the `try/catch` swallowed an exception).
JavaScript `\s` and `trim` also accept some non-ASCII whitespace; the embedding
models the ASCII whitespace subset, which is the only part the repository's
own strings exercise.
-/

namespace Databot

/-- The backtick character, `U+0060`. -/
def btChar : Char := ("`").front

/-- ASCII whitespace, the model of JavaScript's `\s` character class. -/
def isWs (c : Char) : Bool :=
  c = ' ' || c = '\t' || c = '\n' || c = '\r' || c = '\x0b' || c = '\x0c'

/-- `leadsWith pat s` is true when `pat` is an initial segment of `s`. -/
def leadsWith : List Char → List Char → Bool
  | [], _ => true
  | _ :: _, [] => false
  | a :: asx, b :: bs => a = b && leadsWith asx bs

/-- Index of the leftmost occurrence of `pat` in `s`, as a regex engine
scanning start positions left to right would find it. -/
def findSub (pat : List Char) : List Char → Option Nat
  | [] => if pat = [] then some 0 else none
  | c :: rest =>
    if leadsWith pat (c :: rest) then some 0
    else (findSub pat rest).map (· + 1)

/-- Whether `pat` occurs anywhere in `s`. -/
def hasSub (pat s : List Char) : Bool := (findSub pat s).isSome

/-- The opening fence of a chart payload block: the literal prefix of the
regex `/```chart-data\n([\s\S]*?)\n```/g` in `parseChartDataFromResponse`. -/
def chartOpenMarker : List Char := ("```chart-data\n").toList

/-- The closing fence `\n```` of a chart payload block. -/
def chartCloseMarker : List Char := ("\n```").toList

/-- `pat` cannot overlap itself: no proper nonempty suffix-position aligns
with its own prefix.  This is what makes leftmost-match search compositional
for the two fence markers. -/
def overlapFree (pat : List Char) : Bool :=
  (List.range pat.length).all
    (fun k => k = 0 || decide (pat.drop k ≠ pat.take (pat.length - k)))

theorem chartOpenMarker_overlapFree : overlapFree chartOpenMarker = true := by decide

theorem chartCloseMarker_overlapFree : overlapFree chartCloseMarker = true := by decide

theorem chartOpenMarker_length : chartOpenMarker.length = 14 := by decide

theorem chartCloseMarker_length : chartCloseMarker.length = 4 := by decide

theorem overlapFree_elim {pat : List Char} (h : overlapFree pat = true) :
    ∀ k, 0 < k → k < pat.length → pat.drop k ≠ pat.take (pat.length - k) := by
  intro k hk hlt
  have := List.all_eq_true.mp h k (List.mem_range.mpr hlt)
  simp only [Bool.or_eq_true, decide_eq_true_eq] at this
  rcases this with h0 | hne
  · omega
  · exact hne

theorem leadsWith_iff {pat s : List Char} :
    leadsWith pat s = true ↔ ∃ u, s = pat ++ u := by
  induction pat generalizing s with
  | nil => simp [leadsWith]
  | cons a asx ih =>
    cases s with
    | nil =>
      simp only [leadsWith, List.cons_append]
      constructor
      · intro h; cases h
      · rintro ⟨u, hu⟩; cases hu
    | cons b bs =>
      simp only [leadsWith, Bool.and_eq_true, decide_eq_true_eq, List.cons_append, ih]
      constructor
      · rintro ⟨rfl, u, rfl⟩; exact ⟨u, rfl⟩
      · rintro ⟨u, h⟩
        injection h with h1 h2
        exact ⟨h1.symm, u, h2⟩

theorem leadsWith_append_self (pat t : List Char) :
    leadsWith pat (pat ++ t) = true :=
  leadsWith_iff.mpr ⟨t, rfl⟩

theorem hasSub_of_leadsWith {pat s : List Char} (hpat : pat ≠ [])
    (h : leadsWith pat s = true) : hasSub pat s = true := by
  rcases leadsWith_iff.mp h with ⟨u, rfl⟩
  cases pat with
  | nil => exact absurd rfl hpat
  | cons a asx =>
    simp only [hasSub, findSub, List.cons_append]
    rw [if_pos]
    · rfl
    · exact leadsWith_append_self (a :: asx) u

theorem hasSub_cons_of_tail {pat : List Char} {c : Char} {rest : List Char}
    (h : hasSub pat rest = true) : hasSub pat (c :: rest) = true := by
  simp only [hasSub, findSub] at *
  by_cases hl : leadsWith pat (c :: rest) = true
  · rw [if_pos hl]; rfl
  · rw [if_neg hl]
    rcases Option.isSome_iff_exists.mp h with ⟨i, hi⟩
    rw [hi]; rfl

theorem findSub_ne_none_of_hasSub {pat s : List Char} (h : hasSub pat s = false) :
    findSub pat s = none := by
  cases hf : findSub pat s with
  | none => rfl
  | some i => rw [hasSub, hf] at h; simp at h

/-- Leftmost-occurrence search at a marker seam: if `pat` does not occur in
`p` and cannot overlap itself, the first occurrence of `pat` in
`p ++ pat ++ t` is exactly at index `p.length`. -/
theorem findSub_append {pat : List Char} (hov : overlapFree pat = true)
    (hne : pat ≠ []) :
    ∀ p t : List Char, hasSub pat p = false →
      findSub pat (p ++ pat ++ t) = some p.length := by
  intro p
  induction p with
  | nil =>
    intro t _
    cases hpat : pat with
    | nil => exact absurd hpat hne
    | cons a asx =>
      simp only [List.nil_append, List.length_nil]
      rw [← hpat]
      have hlead := leadsWith_append_self pat t
      cases hcat : pat ++ t with
      | nil =>
        rcases List.append_eq_nil.mp hcat with ⟨h1, _⟩
        exact absurd h1 hne
      | cons c rest =>
        rw [← hcat]
        rw [hcat] at hlead ⊢
        simp only [findSub, hlead, if_true]
  | cons c p' ih =>
    intro t hp
    have hp' : hasSub pat p' = false := by
      by_contra hcon
      have := @hasSub_cons_of_tail pat c p'
        (Bool.not_eq_false _ |>.mp hcon)
      rw [hp] at this; cases this
    have hnotlead : ¬ leadsWith pat ((c :: p') ++ pat ++ t) = true := by
      intro hl
      rcases leadsWith_iff.mp hl with ⟨u, hu⟩
      by_cases hlen : pat.length ≤ (c :: p').length
      · -- then pat would be an initial segment of c :: p', i.e. occur in p
        have htake : ((c :: p') ++ (pat ++ t)).take pat.length
            = (c :: p').take pat.length := by
          rw [List.take_append_of_le_length hlen]
        have htake' : ((pat ++ u)).take pat.length = pat := by
          simp
        rw [List.append_assoc] at hu
        rw [hu] at htake
        have hpfx : leadsWith pat (c :: p') = true := by
          apply leadsWith_iff.mpr
          refine ⟨(c :: p').drop pat.length, ?_⟩
          conv_lhs => rw [← List.take_append_drop pat.length (c :: p')]
          rw [← htake, htake']
        have := hasSub_of_leadsWith hne hpfx
        rw [hp] at this; cases this
      · -- pat is longer than c :: p', so pat would overlap itself
        push_neg at hlen
        set k := (c :: p').length with hk
        have hkpos : 0 < k := by simp [hk]
        have hdrop : ((c :: p') ++ (pat ++ t)).drop k = pat ++ t := by
          simp [hk]
        rw [List.append_assoc] at hu
        have hdrop' : (pat ++ u).drop k = pat.drop k ++ u := by
          exact List.drop_append_of_le_length (le_of_lt hlen)
        rw [hu] at hdrop
        rw [hdrop'] at hdrop
        -- pat.drop k ++ u = pat ++ t ; take (pat.length - k) of both sides
        have hlen2 : (pat.drop k).length = pat.length - k := by
          simp
        have htk : (pat ++ t).take (pat.length - k) = pat.take (pat.length - k) :=
          List.take_append_of_le_length (Nat.sub_le _ _)
        have htk2 : (pat.drop k ++ u).take (pat.length - k) = pat.drop k := by
          rw [← hlen2]; exact List.take_left _ _
        rw [← hdrop] at htk
        rw [htk2] at htk
        exact overlapFree_elim hov k hkpos hlen htk
    have hstep : findSub pat ((c :: p') ++ pat ++ t)
        = (findSub pat (p' ++ pat ++ t)).map (· + 1) := by
      simp only [List.cons_append, findSub]
      rw [if_neg]
      · simp [List.append_assoc]
      · simpa [List.cons_append, List.append_assoc] using hnotlead
    rw [hstep, ih t hp']
    simp [Option.map_some]

/-! ### Chart data model (`ChartData` in `data-visualization.tsx`) -/

/-- The `type` field of a chart descriptor. -/
inductive ChartKind
  | bar | line | pie | doughnut | polarArea | scatter | heatmap | histogram | boxplot
deriving DecidableEq

/-- `string | string[]` styling hints on a dataset. -/
inductive ColorSpec
  | single (c : List Char)
  | multi (cs : List (List Char))
deriving DecidableEq

/-- `number[] | {x, y}[]` dataset payload.  JavaScript numbers are floats;
the claims never compute with the values, so they are modelled as integers. -/
inductive ChartPoints
  | flat (xs : List Int)
  | pairs (ps : List (Int × Int))
deriving DecidableEq

/-- One named data series of a chart. -/
structure ChartDataset where
  label : List Char
  data : ChartPoints
  backgroundColor : Option ColorSpec := none
  borderColor : Option ColorSpec := none
  borderWidth : Option Int := none
deriving DecidableEq

/-- A renderable chart descriptor, the shape `JSON.parse` must produce. -/
structure ChartData where
  title : List Char
  description : List Char
  type : ChartKind
  labels : List (List Char)
  datasets : List ChartDataset
deriving DecidableEq

/-! ### `parseChartDataFromResponse` (`data-visualization.tsx`, lines 181-198)

The regex `/```chart-data\n([\s\S]*?)\n```/g` is modelled by `extractBlocks`:
find the leftmost opening fence, then (lazy body) the earliest closing fence
after it, emit the body, and resume after the closing fence.  If an opening
fence has no closing fence after it there is no match at all there, and none
later either, because any later match would need a closing fence even further
right. -/

theorem findSub_some_ne_nil {pat : List Char} (hne : pat ≠ []) {s : List Char}
    {i : Nat} (h : findSub pat s = some i) : s ≠ [] := by
  intro hs
  subst hs
  rw [findSub, if_neg hne] at h
  cases h

/-- The scanning loop behind the chart-data regex, structurally recursive on
a fuel so that the kernel can evaluate it.  Every match consumes the opening
fence, the body and the closing fence — at least one character — so fuel
`s.length + 1` is never exhausted; `extractBlocksGo_congr` shows the result
does not depend on the fuel once it is sufficient. -/
def extractBlocksGo : Nat → List Char → List (List Char)
  | 0, _ => []
  | fuel + 1, s =>
    match findSub chartOpenMarker s with
    | none => []
    | some i =>
      let rest := s.drop (i + chartOpenMarker.length)
      match findSub chartCloseMarker rest with
      | none => []
      | some j =>
        rest.take j :: extractBlocksGo fuel (rest.drop (j + chartCloseMarker.length))

/-- The capture groups of the chart-data regex over a text, in match order. -/
def extractBlocks (s : List Char) : List (List Char) :=
  extractBlocksGo (s.length + 1) s

theorem extractBlocksGo_congr :
    ∀ (f1 f2 : Nat) (s : List Char), s.length < f1 → s.length < f2 →
      extractBlocksGo f1 s = extractBlocksGo f2 s := by
  intro f1
  induction f1 with
  | zero => intro f2 s h1 _; omega
  | succ f1 ih =>
    intro f2 s h1 h2
    cases f2 with
    | zero => omega
    | succ f2 =>
      simp only [extractBlocksGo]
      cases ho : findSub chartOpenMarker s with
      | none => rfl
      | some i =>
        dsimp only
        cases hc : findSub chartCloseMarker (s.drop (i + chartOpenMarker.length)) with
        | none => rfl
        | some j =>
          dsimp only
          have hne : s ≠ [] := findSub_some_ne_nil (by decide) ho
          have hpos : 0 < s.length := List.length_pos.mpr hne
          have harg :
              ((s.drop (i + chartOpenMarker.length)).drop
                (j + chartCloseMarker.length)).length < s.length := by
            simp only [List.drop_drop, List.length_drop, chartOpenMarker_length,
              chartCloseMarker_length]
            omega
          rw [ih f2 _ (by omega) (by omega)]

/-- `parseChartDataFromResponse`, with `JSON.parse` abstracted as `jp`:
each match body is parsed inside the `try/catch` (failures become `null`,
i.e. `none`), and `null` entries are filtered out at the end. -/
def parseChartDataFromResponse (jp : List Char → Option ChartData)
    (analysisText : List Char) : List ChartData :=
  let blockBodies := extractBlocks analysisText
  if blockBodies.length = 0 then []
  else (blockBodies.map jp).filterMap id

/-! ### `formatAIResponse` (`data-analysis-interface.tsx`, lines 228-240) -/

/-- Stage 1 of `formatAIResponse`, fuelled like `extractBlocksGo`: the
global replacement of every chart-data block (the same matches as
`extractBlocksGo`) by the empty string. -/
def removeChartBlocksGo : Nat → List Char → List Char
  | 0, s => s
  | fuel + 1, s =>
    match findSub chartOpenMarker s with
    | none => s
    | some i =>
      let rest := s.drop (i + chartOpenMarker.length)
      match findSub chartCloseMarker rest with
      | none => s
      | some j =>
        s.take i ++ removeChartBlocksGo fuel (rest.drop (j + chartCloseMarker.length))

/-- Stage 1: the global replacement of every chart-data block (the same
matches as `extractBlocks`) by the empty string. -/
def removeChartBlocks (s : List Char) : List Char :=
  removeChartBlocksGo (s.length + 1) s

theorem removeChartBlocksGo_congr :
    ∀ (f1 f2 : Nat) (s : List Char), s.length < f1 → s.length < f2 →
      removeChartBlocksGo f1 s = removeChartBlocksGo f2 s := by
  intro f1
  induction f1 with
  | zero => intro f2 s h1 _; omega
  | succ f1 ih =>
    intro f2 s h1 h2
    cases f2 with
    | zero => omega
    | succ f2 =>
      simp only [removeChartBlocksGo]
      cases ho : findSub chartOpenMarker s with
      | none => rfl
      | some i =>
        dsimp only
        cases hc : findSub chartCloseMarker (s.drop (i + chartOpenMarker.length)) with
        | none => rfl
        | some j =>
          dsimp only
          have hne : s ≠ [] := findSub_some_ne_nil (by decide) ho
          have hpos : 0 < s.length := List.length_pos.mpr hne
          have harg :
              ((s.drop (i + chartOpenMarker.length)).drop
                (j + chartCloseMarker.length)).length < s.length := by
            simp only [List.drop_drop, List.length_drop, chartOpenMarker_length,
              chartCloseMarker_length]
            omega
          rw [ih f2 _ (by omega) (by omega)]

/-- Three backticks, the code-fence delimiter. -/
def fenceChars : List Char := [btChar, btChar, btChar]

/-- Length of the initial match of `/```\s*```/` at the head of `s`, if any.
Greedy `\s*` is deterministic here: after skipping the whole whitespace run
the next characters must be the closing fence (a backtick is not whitespace,
so no shorter run can be followed by one). -/
def emptyBlockLen (s : List Char) : Option Nat :=
  if s.take 3 = fenceChars then
    let w := (s.drop 3).takeWhile isWs
    if ((s.drop 3).drop w.length).take 3 = fenceChars then some (6 + w.length)
    else none
  else none

theorem emptyBlockLen_ge {s : List Char} {n : Nat} (h : emptyBlockLen s = some n) :
    6 ≤ n := by
  unfold emptyBlockLen at h
  by_cases h1 : s.take 3 = fenceChars
  · rw [if_pos h1] at h
    by_cases h2 : ((s.drop 3).drop ((s.drop 3).takeWhile isWs).length).take 3 = fenceChars
    · rw [if_pos h2] at h
      injection h with h3
      omega
    · rw [if_neg h2] at h; cases h
  · rw [if_neg h1] at h; cases h

theorem emptyBlockLen_nil : emptyBlockLen [] = none := by decide

/-- Stage 2, fuelled: scan left to right; at a match of ` ```\s*``` `, emit
nothing and resume after it; otherwise emit the head character. -/
def removeEmptyBlocksGo : Nat → List Char → List Char
  | 0, s => s
  | fuel + 1, s =>
    match emptyBlockLen s with
    | some n => removeEmptyBlocksGo fuel (s.drop n)
    | none =>
      match s with
      | [] => []
      | c :: rest => c :: removeEmptyBlocksGo fuel rest

/-- Stage 2: the global replacement of the pattern ` ```\s*``` ` by the
empty string — drop now-empty fence remnants. -/
def removeEmptyBlocks (s : List Char) : List Char :=
  removeEmptyBlocksGo (s.length + 1) s

theorem removeEmptyBlocksGo_congr :
    ∀ (f1 f2 : Nat) (s : List Char), s.length < f1 → s.length < f2 →
      removeEmptyBlocksGo f1 s = removeEmptyBlocksGo f2 s := by
  intro f1
  induction f1 with
  | zero => intro f2 s h1 _; omega
  | succ f1 ih =>
    intro f2 s h1 h2
    cases f2 with
    | zero => omega
    | succ f2 =>
      simp only [removeEmptyBlocksGo]
      cases hm : emptyBlockLen s with
      | some n =>
        dsimp only
        have h6 := emptyBlockLen_ge hm
        have hne : s ≠ [] := by
          intro hs; subst hs; rw [emptyBlockLen_nil] at hm; cases hm
        have hpos : 0 < s.length := List.length_pos.mpr hne
        have harg : (s.drop n).length < s.length := by
          simp only [List.length_drop]; omega
        rw [ih f2 _ (by omega) (by omega)]
      | none =>
        cases s with
        | nil => rfl
        | cons c rest =>
          dsimp only
          rw [ih f2 rest (by simp at h1; omega) (by simp at h2; omega)]

/-- The length of the leading newline run of `s`. -/
def nlRun (s : List Char) : Nat := (s.takeWhile (fun c => c = '\n')).length

theorem nlRun_le (s : List Char) : nlRun s ≤ s.length := by
  unfold nlRun
  exact (List.takeWhile_sublist _).length_le

/-- Stage 3, fuelled: at a leading run of 3-or-more line breaks, emit
exactly 2 and skip the whole (greedily consumed) run; otherwise emit the
head character. -/
def collapseNewlinesGo : Nat → List Char → List Char
  | 0, s => s
  | fuel + 1, s =>
    if 3 ≤ nlRun s then '\n' :: '\n' :: collapseNewlinesGo fuel (s.drop (nlRun s))
    else
      match s with
      | [] => []
      | c :: rest => c :: collapseNewlinesGo fuel rest

/-- Stage 3: the global replacement of every run of 3-or-more line breaks by
exactly 2. -/
def collapseNewlines (s : List Char) : List Char :=
  collapseNewlinesGo (s.length + 1) s

theorem collapseNewlinesGo_congr :
    ∀ (f1 f2 : Nat) (s : List Char), s.length < f1 → s.length < f2 →
      collapseNewlinesGo f1 s = collapseNewlinesGo f2 s := by
  intro f1
  induction f1 with
  | zero => intro f2 s h1 _; omega
  | succ f1 ih =>
    intro f2 s h1 h2
    cases f2 with
    | zero => omega
    | succ f2 =>
      simp only [collapseNewlinesGo]
      by_cases hbig : 3 ≤ nlRun s
      · rw [if_pos hbig, if_pos hbig]
        have hle := nlRun_le s
        have harg : (s.drop (nlRun s)).length < s.length := by
          simp only [List.length_drop]; omega
        rw [ih f2 _ (by omega) (by omega)]
      · rw [if_neg hbig, if_neg hbig]
        cases s with
        | nil => rfl
        | cons c rest =>
          dsimp only
          rw [ih f2 rest (by simp at h1; omega) (by simp at h2; omega)]

/-- Three dashes, the horizontal-rule marker. -/
def dashChars : List Char := ['-', '-', '-']

/-- Length of the initial match of the pattern ` ---\s*\n\s*\n ` at the head
of `s`, if any.  After the dashes, greedy backtracking consumes whitespace up
to and including the last newline of the maximal whitespace run, provided
that run holds at least two newlines. -/
def hrMatchLen (s : List Char) : Option Nat :=
  if s.take 3 = dashChars then
    let w := (s.drop 3).takeWhile isWs
    if 2 ≤ (w.filter (· = '\n')).length then
      some (3 + (w.length - (w.reverse.takeWhile (· ≠ '\n')).length))
    else none
  else none

theorem hrMatchLen_ge {s : List Char} {n : Nat} (h : hrMatchLen s = some n) :
    3 ≤ n := by
  unfold hrMatchLen at h
  by_cases h1 : s.take 3 = dashChars
  · rw [if_pos h1] at h
    by_cases h2 : 2 ≤ (((s.drop 3).takeWhile isWs).filter (· = '\n')).length
    · rw [if_pos h2] at h
      injection h with h3
      omega
    · rw [if_neg h2] at h; cases h
  · rw [if_neg h1] at h; cases h

theorem hrMatchLen_nil : hrMatchLen [] = none := by decide

/-- Stage 4, fuelled: at a match of ` ---\s*\n\s*\n `, emit three dashes and
a newline and resume after the match; otherwise emit the head character. -/
def hrCleanGo : Nat → List Char → List Char
  | 0, s => s
  | fuel + 1, s =>
    match hrMatchLen s with
    | some n => dashChars ++ '\n' :: hrCleanGo fuel (s.drop n)
    | none =>
      match s with
      | [] => []
      | c :: rest => c :: hrCleanGo fuel rest

/-- Stage 4: the global replacement of ` ---\s*\n\s*\n ` by three dashes and
a newline — clean up after markdown horizontal rules. -/
def hrClean (s : List Char) : List Char :=
  hrCleanGo (s.length + 1) s

theorem hrCleanGo_congr :
    ∀ (f1 f2 : Nat) (s : List Char), s.length < f1 → s.length < f2 →
      hrCleanGo f1 s = hrCleanGo f2 s := by
  intro f1
  induction f1 with
  | zero => intro f2 s h1 _; omega
  | succ f1 ih =>
    intro f2 s h1 h2
    cases f2 with
    | zero => omega
    | succ f2 =>
      simp only [hrCleanGo]
      cases hm : hrMatchLen s with
      | some n =>
        dsimp only
        have h3 := hrMatchLen_ge hm
        have hne : s ≠ [] := by
          intro hs; subst hs; rw [hrMatchLen_nil] at hm; cases hm
        have hpos : 0 < s.length := List.length_pos.mpr hne
        have harg : (s.drop n).length < s.length := by
          simp only [List.length_drop]; omega
        rw [ih f2 _ (by omega) (by omega)]
      | none =>
        cases s with
        | nil => rfl
        | cons c rest =>
          dsimp only
          rw [ih f2 rest (by simp at h1; omega) (by simp at h2; omega)]

/-- Stage 5: `.trim()` (ASCII whitespace model). -/
def trimWs (s : List Char) : List Char :=
  ((s.dropWhile isWs).reverse.dropWhile isWs).reverse

/-- `formatAIResponse`: strip chart blocks, drop empty fences, collapse line
breaks, clean up horizontal rules, trim. -/
def formatAIResponse (content : List Char) : List Char :=
  trimWs (hrClean (collapseNewlines (removeEmptyBlocks (removeChartBlocks content))))

/-- Modelled from the spec (§4.1): the pure whitespace normalization the
display text is specified to equal when the input has no chart block — the
same pipeline without the chart-block removal stage. -/
def normalizeSpec (s : List Char) : List Char :=
  trimWs (hrClean (collapseNewlines (removeEmptyBlocks s)))

/-! ### Conversation data model (`data-analysis-interface.tsx`, lines 19-37) -/

/-- Message author. -/
inductive Role
  | user | assistant
deriving DecidableEq

/-- One conversation turn.  `formattedContent` and `charts` are the optional
fields of the TSX interface; `isTyping` defaults to absent/false.  The
`new Date().toISOString()` timestamps are modelled as abstract `Nat` clock
values supplied by the caller. -/
structure Message where
  role : Role
  content : List Char
  formattedContent : Option (List Char) := none
  timestamp : Nat
  charts : Option (List ChartData) := none
  isTyping : Bool := false
deriving DecidableEq

/-- The completion callback of `sendMessage` (lines 195-204): the in-place
update, keyed by timestamp, that finalizes the typing placeholder.  This is
the only update-by-timestamp operation the component performs. -/
def finishTyping (msgs : List Message) (ts : Nat)
    (analysis formatted : List Char) : List Message :=
  msgs.map fun msg =>
    if msg.timestamp = ts then
      { msg with content := analysis, formattedContent := some formatted,
                 isTyping := false }
    else msg

/-! ### `simulateTyping` (`data-analysis-interface.tsx`, lines 406-455) -/

/-- Adaptive chunk size chosen from the total text length. -/
def chunkSizeFor (len : Nat) : Nat :=
  if 2000 < len then 10
  else if 1000 < len then 8
  else if 500 < len then 5
  else 3

theorem chunkSizeFor_pos (len : Nat) : 0 < chunkSizeFor len := by
  unfold chunkSizeFor
  repeat' split
  all_goals omega

/-- The cursor position after one tick from `index`. -/
def nextIndex (text : List Char) (index : Nat) : Nat :=
  min (index + chunkSizeFor text.length) text.length

/-- The `typeNextCharacter` timer chain: while the cursor is short of the
end, append the chunk `text.substring(index, endIndex)` to the accumulated
typing text and continue from `endIndex`. -/
def typeLoopGo : Nat → List Char → Nat → List Char → List Char
  | 0, _, _, acc => acc
  | fuel + 1, text, index, acc =>
    if index < text.length then
      typeLoopGo fuel text (nextIndex text index)
        (acc ++ (text.take (nextIndex text index)).drop index)
    else acc

/-- The `typeNextCharacter` timer chain, with fuel `text.length + 1`: the
cursor advances by at least one character per tick, so the fuel is never
exhausted (`typeLoopGo_eq` below proves the loop reaches the full text). -/
def typeLoop (text : List Char) (index : Nat) (acc : List Char) : List Char :=
  typeLoopGo (text.length + 1) text index acc

/-! ### Upload orchestration (`handleFileUpload`, lines 80-145) -/

/-- A transient toast notification. -/
inductive Toast
  | success (msg : List Char)
  | error (msg : List Char)
deriving DecidableEq

/-- The `summary` object of an upload response. -/
structure FileSummary where
  rows : Nat
  columns : List (List Char)
  data_types : List (List Char × List Char)
deriving DecidableEq

/-- The upload response (`UploadResponse` in `services/api.ts`); preview
cell values are modelled by their display strings. -/
structure FileData where
  file_id : List Char
  filename : List Char
  summary : FileSummary
  data_preview : List (List (List Char × List Char))
deriving DecidableEq

/-- The component state the claims quantify over: active file id, dataset,
conversation, and the visualization slot. -/
structure UIState where
  activeFileId : Option (List Char) := none
  fileData : Option FileData := none
  messages : List Message := []
  visualizationCharts : List ChartData := []
deriving DecidableEq

/-- `suffix.endsWith` on JavaScript strings. -/
def endsWithSub (suffix s : List Char) : Bool :=
  leadsWith suffix.reverse s.reverse

/-- The extension allow-list check: lower-case the file name, then test the
three suffixes (lines 85-86). -/
def validUploadName (fileName : List Char) : Bool :=
  let lower := fileName.map Char.toLower
  endsWithSub ((".xlsx").toList) lower || endsWithSub ((".xls").toList) lower
    || endsWithSub ((".csv").toList) lower

/-- The synthesized welcome message (lines 112-124), with the row and column
counts rendered in decimal. -/
def welcomeMessage (data : FileData) : List Char :=
  ("**File Analysis Complete!**\n\nI\x27ve processed your file \"**").toList
    ++ data.filename
    ++ ("**\". \n\nHere\x27s a summary of your data:\n* **Rows:** ").toList
    ++ Nat.toDigits 10 data.summary.rows
    ++ ("\n* **Columns:** ").toList
    ++ Nat.toDigits 10 data.summary.columns.length
    ++ ("\n\nHow can I help you analyze this data? You can ask me to:"
        ++ "\n* Generate visualizations\n* Calculate statistics"
        ++ "\n* Find trends or patterns\n* Summarize key insights").toList

/-- What one invocation of an upload or send handler produced: the next
component state, the toasts it fired, and whether it reached the network. -/
structure HandlerOutcome where
  state : UIState
  toasts : List Toast
  networkCalled : Bool
deriving DecidableEq

/-- The invalid-extension toast text. -/
def uploadInvalidMsg : List Char :=
  ("Please upload an Excel file (.xlsx, .xls) or CSV file (.csv)").toList

/-- The upload-failure toast text. -/
def uploadFailedMsg : List Char :=
  ("Failed to upload file. Please try again.").toList

/-- The upload-success toast text. -/
def uploadSuccessMsg : List Char := ("File uploaded successfully!").toList

/-- `handleFileUpload`: extension validation before the network call; on
success replace the dataset and reset the conversation to the welcome
message; on failure leave the state as it was and toast.  The progress bar
and `isUploading` are cosmetic and outside `UIState`.  The network result is
passed in explicitly (`Except` models the thrown/ok outcome of
`uploadFile`). -/
def handleFileUpload (s : UIState) (fileName : List Char) (ts : Nat)
    (result : Except (List Char) FileData) : HandlerOutcome :=
  if validUploadName fileName then
    match result with
    | .ok data =>
      { state := { s with
          fileData := some data
          activeFileId := some data.file_id
          messages := [{ role := .assistant, content := welcomeMessage data,
                         formattedContent := some (welcomeMessage data),
                         timestamp := ts }] }
        toasts := [.success uploadSuccessMsg]
        networkCalled := true }
    | .error _ =>
      { state := s
        toasts := [.error uploadFailedMsg]
        networkCalled := true }
  else
    { state := s
      toasts := [.error uploadInvalidMsg]
      networkCalled := false }

/-- The prefix of `sendMessage` up to the network call (lines 148-161): the
guard rejects a blank message or a missing active file id by returning at
once — silently — and otherwise appends the user message and proceeds to the
network. -/
def sendMessagePre (s : UIState) (txt : List Char) (ts : Nat) : HandlerOutcome :=
  if trimWs txt = [] ∨ s.activeFileId = none then
    { state := s, toasts := [], networkCalled := false }
  else
    { state := { s with messages :=
        s.messages ++ [{ role := .user, content := txt, timestamp := ts }] }
      toasts := [], networkCalled := true }

/-! ### Chat session event machine (for the reveal-overlap claims)

`sendMessage` releases `isSending` in its `finally` block as soon as
`simulateTyping` has been *started*, so the UI re-enables the send controls
while the reveal is still running.  The machine below has the three atomic
state mutations the single-threaded event loop performs. -/

/-- Chat-relevant component state: the message list, the send lock, and the
shared `isTyping` flag. -/
structure ChatState where
  messages : List Message := []
  isSending : Bool := false
  typingActive : Bool := false
deriving DecidableEq

/-- The three atomic transitions of a chat round:
user submit, network reply (placeholder append + reveal start + lock
release), and reveal completion (the timestamp-keyed finalize). -/
inductive ChatEvent
  | userSend (content : List Char) (ts : Nat)
  | response (analysis formatted : List Char) (charts : List ChartData) (ts : Nat)
  | finalize (ts : Nat) (analysis formatted : List Char)
deriving DecidableEq

/-- Effect of one event on the component state, as the handlers perform it. -/
def chatStep (s : ChatState) : ChatEvent → ChatState
  | .userSend content ts =>
    { s with
        messages := s.messages ++ [{ role := .user, content := content,
                                     timestamp := ts }],
        isSending := true }
  | .response _ _ charts ts =>
    let placeholder : Message :=
      { role := .assistant, content := [], formattedContent := some [],
        timestamp := ts,
        charts := if charts.length = 0 then none else some charts,
        isTyping := true }
    { s with
        messages := s.messages ++ [placeholder],
        isSending := false,
        typingActive := true }
  | .finalize ts analysis formatted =>
    { s with
        messages := finishTyping s.messages ts analysis formatted
        typingActive := false }

/-- Run a trace of events. -/
def runTrace (s : ChatState) : List ChatEvent → ChatState
  | [] => s
  | e :: es => runTrace (chatStep s e) es

/-- Every state visited along a trace, initial state included. -/
def traceStates (s : ChatState) : List ChatEvent → List ChatState
  | [] => [s]
  | e :: es => s :: traceStates (chatStep s e) es

/-- The scheduling constraints the UI enforces: a send is only possible
while no round trip is outstanding (send controls disabled during
`isSending`) and must carry a non-blank message; a reply only arrives for an
outstanding send; a reveal only completes while a reveal is running. -/
def eventAllowed (s : ChatState) : ChatEvent → Bool
  | .userSend content _ => !s.isSending && !(trimWs content).isEmpty
  | .response _ _ _ _ => s.isSending
  | .finalize _ _ _ => s.typingActive

/-- A trace every step of which the serialized UI can produce. -/
def serializedTrace (s : ChatState) : List ChatEvent → Bool
  | [] => true
  | e :: es => eventAllowed s e && serializedTrace (chatStep s e) es

/-- Number of messages currently flagged as revealing. -/
def countTyping (msgs : List Message) : Nat :=
  msgs.countP (fun m => m.isTyping)

/-- The stricter discipline the spec demands of reveals: a reply is only
handled once no message is still revealing (each reveal finishes before the
next reply arrives). -/
def nonOverlapping (s : ChatState) : List ChatEvent → Bool
  | [] => true
  | e :: es =>
    (match e with
     | .response _ _ _ _ => countTyping s.messages = 0
     | _ => true)
    && nonOverlapping (chatStep s e) es

/-! ### Shape of a text containing well-formed fenced chart blocks

A raw assistant text "containing N well-formed fenced chart-data blocks" is
an interleaving of prose pieces and fenced bodies.  `renderChunks` builds
such a text; the claims quantify over it. -/

/-- Build the text `p₀ ++ fence b₀ ++ p₁ ++ fence b₁ ++ … ++ trailing` from
prose/body chunks. -/
def renderChunks : List (List Char × List Char) → List Char → List Char
  | [], trailing => trailing
  | (p, b) :: rest, trailing =>
    p ++ chartOpenMarker ++ b ++ chartCloseMarker ++ renderChunks rest trailing

/-- The concatenation of the prose pieces alone (what block removal leaves). -/
def joinProse : List (List Char × List Char) → List Char → List Char
  | [], trailing => trailing
  | (p, _) :: rest, trailing => p ++ joinProse rest trailing

/-! ### Helper lemmas: how the scanners walk a rendered text -/

theorem extractBlocksGo_none {fuel : Nat} {s : List Char}
    (h : findSub chartOpenMarker s = none) :
    extractBlocksGo (fuel + 1) s = [] := by
  simp only [extractBlocksGo]
  rw [h]

theorem extractBlocksGo_close_none {fuel : Nat} {s : List Char} {i : Nat}
    (h1 : findSub chartOpenMarker s = some i)
    (h2 : findSub chartCloseMarker (s.drop (i + chartOpenMarker.length)) = none) :
    extractBlocksGo (fuel + 1) s = [] := by
  simp only [extractBlocksGo]
  rw [h1]
  dsimp only
  rw [h2]

theorem extractBlocksGo_step {fuel : Nat} {s : List Char} {i j : Nat}
    (h1 : findSub chartOpenMarker s = some i)
    (h2 : findSub chartCloseMarker (s.drop (i + chartOpenMarker.length)) = some j) :
    extractBlocksGo (fuel + 1) s
      = (s.drop (i + chartOpenMarker.length)).take j
        :: extractBlocksGo fuel
            ((s.drop (i + chartOpenMarker.length)).drop (j + chartCloseMarker.length)) := by
  simp only [extractBlocksGo]
  rw [h1]
  dsimp only
  rw [h2]

theorem extractBlocks_eq_nil {s : List Char}
    (h : findSub chartOpenMarker s = none) : extractBlocks s = [] := by
  unfold extractBlocks
  exact extractBlocksGo_none h

theorem extractBlocks_cons_eq {s : List Char} {i j : Nat}
    (h1 : findSub chartOpenMarker s = some i)
    (h2 : findSub chartCloseMarker (s.drop (i + chartOpenMarker.length)) = some j) :
    extractBlocks s
      = (s.drop (i + chartOpenMarker.length)).take j
        :: extractBlocks
            ((s.drop (i + chartOpenMarker.length)).drop (j + chartCloseMarker.length)) := by
  have hne : s ≠ [] := findSub_some_ne_nil (by decide) h1
  have hpos : 0 < s.length := List.length_pos.mpr hne
  have harg :
      ((s.drop (i + chartOpenMarker.length)).drop
        (j + chartCloseMarker.length)).length < s.length := by
    simp only [List.drop_drop, List.length_drop, chartOpenMarker_length,
      chartCloseMarker_length]
    omega
  unfold extractBlocks
  rw [extractBlocksGo_step h1 h2]
  congr 1
  exact extractBlocksGo_congr s.length _ _ (by omega) (Nat.lt_succ_self _)

theorem removeChartBlocksGo_none {fuel : Nat} {s : List Char}
    (h : findSub chartOpenMarker s = none) :
    removeChartBlocksGo (fuel + 1) s = s := by
  simp only [removeChartBlocksGo]
  rw [h]

theorem removeChartBlocksGo_close_none {fuel : Nat} {s : List Char} {i : Nat}
    (h1 : findSub chartOpenMarker s = some i)
    (h2 : findSub chartCloseMarker (s.drop (i + chartOpenMarker.length)) = none) :
    removeChartBlocksGo (fuel + 1) s = s := by
  simp only [removeChartBlocksGo]
  rw [h1]
  dsimp only
  rw [h2]

theorem removeChartBlocksGo_step {fuel : Nat} {s : List Char} {i j : Nat}
    (h1 : findSub chartOpenMarker s = some i)
    (h2 : findSub chartCloseMarker (s.drop (i + chartOpenMarker.length)) = some j) :
    removeChartBlocksGo (fuel + 1) s
      = s.take i
        ++ removeChartBlocksGo fuel
            ((s.drop (i + chartOpenMarker.length)).drop (j + chartCloseMarker.length)) := by
  simp only [removeChartBlocksGo]
  rw [h1]
  dsimp only
  rw [h2]

theorem removeChartBlocks_eq_self_of_none {s : List Char}
    (h : findSub chartOpenMarker s = none) : removeChartBlocks s = s := by
  unfold removeChartBlocks
  exact removeChartBlocksGo_none h

theorem removeChartBlocks_eq_self_of_close_none {s : List Char} {i : Nat}
    (h1 : findSub chartOpenMarker s = some i)
    (h2 : findSub chartCloseMarker (s.drop (i + chartOpenMarker.length)) = none) :
    removeChartBlocks s = s := by
  unfold removeChartBlocks
  exact removeChartBlocksGo_close_none h1 h2

theorem removeChartBlocks_cons_eq {s : List Char} {i j : Nat}
    (h1 : findSub chartOpenMarker s = some i)
    (h2 : findSub chartCloseMarker (s.drop (i + chartOpenMarker.length)) = some j) :
    removeChartBlocks s
      = s.take i
        ++ removeChartBlocks
            ((s.drop (i + chartOpenMarker.length)).drop (j + chartCloseMarker.length)) := by
  have hne : s ≠ [] := findSub_some_ne_nil (by decide) h1
  have hpos : 0 < s.length := List.length_pos.mpr hne
  have harg :
      ((s.drop (i + chartOpenMarker.length)).drop
        (j + chartCloseMarker.length)).length < s.length := by
    simp only [List.drop_drop, List.length_drop, chartOpenMarker_length,
      chartCloseMarker_length]
    omega
  unfold removeChartBlocks
  rw [removeChartBlocksGo_step h1 h2]
  congr 1
  exact removeChartBlocksGo_congr s.length _ _ (by omega) (Nat.lt_succ_self _)

/-- `findSub_append` restated with a right-nested append. -/
theorem findSub_append_r {pat : List Char} (hov : overlapFree pat = true)
    (hne : pat ≠ []) (p t : List Char) (hp : hasSub pat p = false) :
    findSub pat (p ++ (pat ++ t)) = some p.length := by
  rw [← List.append_assoc]
  exact findSub_append hov hne p t hp

theorem drop_seam {p m t : List Char} :
    (p ++ (m ++ t)).drop (p.length + m.length) = t := by
  rw [← List.append_assoc]
  have h : (p ++ m).length = p.length + m.length := by simp
  rw [← h, List.drop_left]

theorem take_seam (p u : List Char) : (p ++ u).take p.length = p :=
  List.take_left p u

/-- The scan of a rendered text recovers exactly the fenced bodies, in
order, provided no prose piece contains an opening fence and no body
contains a closing fence. -/
theorem extractBlocks_render :
    ∀ (chunks : List (List Char × List Char)) (trailing : List Char),
      (∀ pb ∈ chunks, hasSub chartOpenMarker pb.1 = false
        ∧ hasSub chartCloseMarker pb.2 = false) →
      hasSub chartOpenMarker trailing = false →
      extractBlocks (renderChunks chunks trailing)
        = chunks.map (fun pb => pb.2) := by
  intro chunks
  induction chunks with
  | nil =>
    intro trailing _ htr
    exact extractBlocks_eq_nil (findSub_ne_none_of_hasSub htr)
  | cons pb rest ih =>
    intro trailing hall htr
    obtain ⟨p, b⟩ := pb
    have hp : hasSub chartOpenMarker p = false := (hall (p, b) (by simp)).1
    have hb : hasSub chartCloseMarker b = false := (hall (p, b) (by simp)).2
    have hrest : ∀ pb ∈ rest, hasSub chartOpenMarker pb.1 = false
        ∧ hasSub chartCloseMarker pb.2 = false := by
      intro pb hm; exact hall pb (by simp [hm])
    have hform : renderChunks ((p, b) :: rest) trailing
        = p ++ (chartOpenMarker ++ (b ++ (chartCloseMarker ++ renderChunks rest trailing))) := by
      simp [renderChunks, List.append_assoc]
    have h1 : findSub chartOpenMarker (renderChunks ((p, b) :: rest) trailing)
        = some p.length := by
      rw [hform]
      exact findSub_append_r chartOpenMarker_overlapFree (by decide) p _ hp
    have hdrop1 : (renderChunks ((p, b) :: rest) trailing).drop
        (p.length + chartOpenMarker.length)
        = b ++ (chartCloseMarker ++ renderChunks rest trailing) := by
      rw [hform]; exact drop_seam
    have h2 : findSub chartCloseMarker
        ((renderChunks ((p, b) :: rest) trailing).drop (p.length + chartOpenMarker.length))
        = some b.length := by
      rw [hdrop1]
      exact findSub_append_r chartCloseMarker_overlapFree (by decide) b _ hb
    rw [extractBlocks_cons_eq h1 h2, hdrop1]
    rw [take_seam, drop_seam]
    rw [ih trailing hrest htr]
    rfl

/-- Block removal on a rendered text leaves exactly the prose pieces and the
trailing text. -/
theorem removeChartBlocks_render :
    ∀ (chunks : List (List Char × List Char)) (trailing : List Char),
      (∀ pb ∈ chunks, hasSub chartOpenMarker pb.1 = false
        ∧ hasSub chartCloseMarker pb.2 = false) →
      hasSub chartOpenMarker trailing = false →
      removeChartBlocks (renderChunks chunks trailing) = joinProse chunks trailing := by
  intro chunks
  induction chunks with
  | nil =>
    intro trailing _ htr
    exact removeChartBlocks_eq_self_of_none (findSub_ne_none_of_hasSub htr)
  | cons pb rest ih =>
    intro trailing hall htr
    obtain ⟨p, b⟩ := pb
    have hp : hasSub chartOpenMarker p = false := (hall (p, b) (by simp)).1
    have hb : hasSub chartCloseMarker b = false := (hall (p, b) (by simp)).2
    have hrest : ∀ pb ∈ rest, hasSub chartOpenMarker pb.1 = false
        ∧ hasSub chartCloseMarker pb.2 = false := by
      intro pb hm; exact hall pb (by simp [hm])
    have hform : renderChunks ((p, b) :: rest) trailing
        = p ++ (chartOpenMarker ++ (b ++ (chartCloseMarker ++ renderChunks rest trailing))) := by
      simp [renderChunks, List.append_assoc]
    have h1 : findSub chartOpenMarker (renderChunks ((p, b) :: rest) trailing)
        = some p.length := by
      rw [hform]
      exact findSub_append_r chartOpenMarker_overlapFree (by decide) p _ hp
    have hdrop1 : (renderChunks ((p, b) :: rest) trailing).drop
        (p.length + chartOpenMarker.length)
        = b ++ (chartCloseMarker ++ renderChunks rest trailing) := by
      rw [hform]; exact drop_seam
    have h2 : findSub chartCloseMarker
        ((renderChunks ((p, b) :: rest) trailing).drop (p.length + chartOpenMarker.length))
        = some b.length := by
      rw [hdrop1]
      exact findSub_append_r chartCloseMarker_overlapFree (by decide) b _ hb
    rw [removeChartBlocks_cons_eq h1 h2, hdrop1]
    have htake : (renderChunks ((p, b) :: rest) trailing).take p.length = p := by
      rw [hform]; exact take_seam p _
    rw [htake, drop_seam, ih trailing hrest htr]
    rfl

/-! ### Helper lemmas: backtick-free text passes through the normalizer -/

theorem findSub_none_of_head_not_mem {c : Char} {pat' : List Char} :
    ∀ s : List Char, c ∉ s → findSub (c :: pat') s = none := by
  intro s
  induction s with
  | nil => intro _; rw [findSub, if_neg (by simp)]
  | cons d rest ih =>
    intro h
    have hcd : c ≠ d := fun he => h (he ▸ List.mem_cons_self d rest)
    have hcr : c ∉ rest := fun hm => h (List.mem_cons_of_mem d hm)
    rw [findSub, if_neg, ih hcr]
    · rfl
    · intro hl
      rcases leadsWith_iff.mp hl with ⟨u, hu⟩
      rw [List.cons_append] at hu
      injection hu with h1 _
      exact hcd h1.symm

theorem take3_fence_mem {s : List Char} (h : s.take 3 = fenceChars) : btChar ∈ s := by
  have : btChar ∈ s.take 3 := by rw [h]; simp [fenceChars]
  exact List.take_subset 3 s this

theorem emptyBlockLen_none_of_not_mem {s : List Char} (h : btChar ∉ s) :
    emptyBlockLen s = none := by
  unfold emptyBlockLen
  rw [if_neg]
  intro h3
  exact h (take3_fence_mem h3)

theorem removeEmptyBlocksGo_some {fuel : Nat} {s : List Char} {n : Nat}
    (h : emptyBlockLen s = some n) :
    removeEmptyBlocksGo (fuel + 1) s = removeEmptyBlocksGo fuel (s.drop n) := by
  simp only [removeEmptyBlocksGo]
  rw [h]

theorem removeEmptyBlocksGo_none_cons {fuel : Nat} {c : Char} {rest : List Char}
    (h : emptyBlockLen (c :: rest) = none) :
    removeEmptyBlocksGo (fuel + 1) (c :: rest) = c :: removeEmptyBlocksGo fuel rest := by
  simp only [removeEmptyBlocksGo]
  rw [h]

theorem removeEmptyBlocks_some {s : List Char} {n : Nat}
    (h : emptyBlockLen s = some n) :
    removeEmptyBlocks s = removeEmptyBlocks (s.drop n) := by
  have h6 := emptyBlockLen_ge h
  have hne : s ≠ [] := by
    intro hs; subst hs; rw [emptyBlockLen_nil] at h; cases h
  have hpos : 0 < s.length := List.length_pos.mpr hne
  have harg : (s.drop n).length < s.length := by
    simp only [List.length_drop]; omega
  unfold removeEmptyBlocks
  rw [removeEmptyBlocksGo_some h]
  exact removeEmptyBlocksGo_congr s.length _ _ (by omega) (Nat.lt_succ_self _)

theorem removeEmptyBlocks_none_cons {c : Char} {rest : List Char}
    (h : emptyBlockLen (c :: rest) = none) :
    removeEmptyBlocks (c :: rest) = c :: removeEmptyBlocks rest := by
  unfold removeEmptyBlocks
  rw [removeEmptyBlocksGo_none_cons h]
  simp only [List.length_cons]

theorem removeEmptyBlocks_eq_self_of_not_mem :
    ∀ s : List Char, btChar ∉ s → removeEmptyBlocks s = s := by
  intro s
  induction s with
  | nil => intro _; rfl
  | cons c rest ih =>
    intro h
    have hcr : btChar ∉ rest := fun hm => h (List.mem_cons_of_mem c hm)
    rw [removeEmptyBlocks_none_cons (emptyBlockLen_none_of_not_mem h), ih hcr]

theorem collapseNewlinesGo_big {fuel : Nat} {s : List Char} (h : 3 ≤ nlRun s) :
    collapseNewlinesGo (fuel + 1) s
      = '\n' :: '\n' :: collapseNewlinesGo fuel (s.drop (nlRun s)) := by
  simp only [collapseNewlinesGo]
  rw [if_pos h]

theorem collapseNewlinesGo_small_cons {fuel : Nat} {c : Char} {rest : List Char}
    (h : ¬ 3 ≤ nlRun (c :: rest)) :
    collapseNewlinesGo (fuel + 1) (c :: rest) = c :: collapseNewlinesGo fuel rest := by
  simp only [collapseNewlinesGo]
  rw [if_neg h]

theorem collapseNewlines_nil : collapseNewlines [] = [] := rfl

theorem collapseNewlines_big {s : List Char} (h : 3 ≤ nlRun s) :
    collapseNewlines s = '\n' :: '\n' :: collapseNewlines (s.drop (nlRun s)) := by
  have hle := nlRun_le s
  have harg : (s.drop (nlRun s)).length < s.length := by
    simp only [List.length_drop]; omega
  unfold collapseNewlines
  rw [collapseNewlinesGo_big h]
  congr 2
  exact collapseNewlinesGo_congr s.length _ _ (by omega) (Nat.lt_succ_self _)

theorem collapseNewlines_small_cons {c : Char} {rest : List Char}
    (h : ¬ 3 ≤ nlRun (c :: rest)) :
    collapseNewlines (c :: rest) = c :: collapseNewlines rest := by
  unfold collapseNewlines
  rw [collapseNewlinesGo_small_cons h]
  simp only [List.length_cons]

theorem mem_collapseNewlines {a : Char} :
    ∀ s : List Char, a ∈ collapseNewlines s → a ∈ s ∨ a = '\n' := by
  have H : ∀ (n : Nat) (s : List Char), s.length ≤ n →
      a ∈ collapseNewlines s → a ∈ s ∨ a = '\n' := by
    intro n
    induction n with
    | zero =>
      intro s hl h
      have hs : s = [] := List.length_eq_zero.mp (Nat.le_zero.mp hl)
      subst hs
      rw [collapseNewlines_nil] at h
      cases h
    | succ n ih =>
      intro s hl h
      by_cases hbig : 3 ≤ nlRun s
      · rw [collapseNewlines_big hbig] at h
        rcases List.mem_cons.mp h with h1 | h1
        · right; exact h1
        rcases List.mem_cons.mp h1 with h2 | h2
        · right; exact h2
        have hlen : (s.drop (nlRun s)).length ≤ n := by
          simp only [List.length_drop]
          omega
        rcases ih (s.drop (nlRun s)) hlen h2 with hm | he
        · left; exact List.drop_subset _ _ hm
        · right; exact he
      · cases s with
        | nil => rw [collapseNewlines_nil] at h; cases h
        | cons c rest =>
          rw [collapseNewlines_small_cons hbig] at h
          rcases List.mem_cons.mp h with h1 | h1
          · left; exact h1 ▸ List.mem_cons_self c rest
          have hlen : rest.length ≤ n := by
            simp only [List.length_cons] at hl
            omega
          rcases ih rest hlen h1 with hm | he
          · left; exact List.mem_cons_of_mem _ hm
          · right; exact he
  intro s
  exact H s.length s le_rfl

theorem hrCleanGo_some {fuel : Nat} {s : List Char} {n : Nat}
    (h : hrMatchLen s = some n) :
    hrCleanGo (fuel + 1) s = dashChars ++ '\n' :: hrCleanGo fuel (s.drop n) := by
  simp only [hrCleanGo]
  rw [h]

theorem hrCleanGo_none_cons {fuel : Nat} {c : Char} {rest : List Char}
    (h : hrMatchLen (c :: rest) = none) :
    hrCleanGo (fuel + 1) (c :: rest) = c :: hrCleanGo fuel rest := by
  simp only [hrCleanGo]
  rw [h]

theorem hrClean_nil : hrClean [] = [] := rfl

theorem hrClean_some {s : List Char} {n : Nat} (h : hrMatchLen s = some n) :
    hrClean s = dashChars ++ '\n' :: hrClean (s.drop n) := by
  have h3 := hrMatchLen_ge h
  have hne : s ≠ [] := by
    intro hs; subst hs; rw [hrMatchLen_nil] at h; cases h
  have hpos : 0 < s.length := List.length_pos.mpr hne
  have harg : (s.drop n).length < s.length := by
    simp only [List.length_drop]; omega
  unfold hrClean
  rw [hrCleanGo_some h]
  rw [hrCleanGo_congr s.length ((s.drop n).length + 1) (s.drop n) (by omega)
    (Nat.lt_succ_self _)]

theorem hrClean_none_cons {c : Char} {rest : List Char}
    (h : hrMatchLen (c :: rest) = none) :
    hrClean (c :: rest) = c :: hrClean rest := by
  unfold hrClean
  rw [hrCleanGo_none_cons h]
  simp only [List.length_cons]

theorem mem_hrClean {a : Char} :
    ∀ s : List Char, a ∈ hrClean s → a ∈ s ∨ a = '-' ∨ a = '\n' := by
  have H : ∀ (n : Nat) (s : List Char), s.length ≤ n →
      a ∈ hrClean s → a ∈ s ∨ a = '-' ∨ a = '\n' := by
    intro n
    induction n with
    | zero =>
      intro s hl h
      have hs : s = [] := List.length_eq_zero.mp (Nat.le_zero.mp hl)
      subst hs
      rw [hrClean_nil] at h
      cases h
    | succ n ih =>
      intro s hl h
      cases hm : hrMatchLen s with
      | some k =>
        rw [hrClean_some hm] at h
        rcases List.mem_append.mp h with h1 | h1
        · right; left
          simp only [dashChars, List.mem_cons, List.not_mem_nil, or_false] at h1
          rcases h1 with h2 | h2 | h2 <;> exact h2
        rcases List.mem_cons.mp h1 with h2 | h2
        · right; right; exact h2
        have hk := hrMatchLen_ge hm
        have hlen : (s.drop k).length ≤ n := by
          have hne : s ≠ [] := by
            intro hs; subst hs; rw [hrMatchLen_nil] at hm; cases hm
          have hpos : 0 < s.length := List.length_pos.mpr hne
          simp only [List.length_drop]
          omega
        rcases ih (s.drop k) hlen h2 with hmm | he
        · left; exact List.drop_subset _ _ hmm
        · right; exact he
      | none =>
        cases s with
        | nil => rw [hrClean_nil] at h; cases h
        | cons c rest =>
          rw [hrClean_none_cons hm] at h
          rcases List.mem_cons.mp h with h1 | h1
          · left; exact h1 ▸ List.mem_cons_self c rest
          have hlen : rest.length ≤ n := by
            simp only [List.length_cons] at hl
            omega
          rcases ih rest hlen h1 with hmm | he
          · left; exact List.mem_cons_of_mem _ hmm
          · right; exact he
  intro s
  exact H s.length s le_rfl

theorem mem_trimWs {a : Char} {s : List Char} (h : a ∈ trimWs s) : a ∈ s := by
  unfold trimWs at h
  rw [List.mem_reverse] at h
  have h1 := (@List.dropWhile_sublist _ ((s.dropWhile isWs).reverse) isWs).mem h
  rw [List.mem_reverse] at h1
  exact (@List.dropWhile_sublist _ s isWs).mem h1

theorem btChar_not_mem_normalizeSpec {s : List Char} (h : btChar ∉ s) :
    btChar ∉ normalizeSpec s := by
  intro hm
  unfold normalizeSpec at hm
  have h1 := mem_trimWs hm
  rcases mem_hrClean _ h1 with h2 | h2 | h2
  · rcases mem_collapseNewlines _ h2 with h3 | h3
    · rw [removeEmptyBlocks_eq_self_of_not_mem s h] at h3
      exact h h3
    · exact absurd h3 (by decide)
  · exact absurd h2 (by decide)
  · exact absurd h2 (by decide)

theorem hasSub_openMarker_false_of_not_mem {s : List Char} (h : btChar ∉ s) :
    hasSub chartOpenMarker s = false := by
  have hmk : chartOpenMarker = btChar :: (("``chart-data\n").toList) := by decide
  rw [hasSub, hmk, findSub_none_of_head_not_mem s h]
  rfl

theorem not_mem_joinProse {chunks : List (List Char × List Char)}
    {trailing : List Char} (hall : ∀ pb ∈ chunks, btChar ∉ pb.1)
    (htr : btChar ∉ trailing) : btChar ∉ joinProse chunks trailing := by
  induction chunks with
  | nil => exact htr
  | cons pb rest ih =>
    obtain ⟨p, b⟩ := pb
    intro hm
    rw [joinProse] at hm
    rcases List.mem_append.mp hm with h1 | h1
    · exact hall (p, b) (by simp) h1
    · exact ih (fun pb hpb => hall pb (by simp [hpb])) h1

/-! ### Helper lemmas: the typing loop and the conversation store -/

theorem typeLoopGo_eq :
    ∀ (fuel : Nat) (text : List Char) (index : Nat) (acc : List Char),
      text.length - index < fuel →
      typeLoopGo fuel text index acc = acc ++ text.drop index := by
  intro fuel
  induction fuel with
  | zero => intro text index acc h; omega
  | succ fuel ih =>
    intro text index acc h
    simp only [typeLoopGo]
    by_cases hlt : index < text.length
    · rw [if_pos hlt]
      have hc := chunkSizeFor_pos text.length
      have he1 : index < nextIndex text index := by
        simp only [nextIndex]; omega
      have he2 : nextIndex text index ≤ text.length := Nat.min_le_right _ _
      rw [ih text (nextIndex text index) _ (by omega)]
      rw [List.append_assoc]
      congr 1
      have hsplit : text.drop index
          = (text.take (nextIndex text index)).drop index
            ++ text.drop (nextIndex text index) := by
        conv_lhs => rw [← List.take_append_drop (nextIndex text index) text]
        rw [List.drop_append_of_le_length]
        rw [List.length_take]
        omega
      exact hsplit.symm
    · rw [if_neg hlt]
      rw [List.drop_eq_nil_of_le (by omega), List.append_nil]

theorem typeLoop_eq (text : List Char) :
    ∀ (index : Nat) (acc : List Char),
      typeLoop text index acc = acc ++ text.drop index := by
  intro index acc
  unfold typeLoop
  exact typeLoopGo_eq (text.length + 1) text index acc (by omega)

theorem finishTyping_getElem (msgs : List Message) (ts : Nat)
    (analysis formatted : List Char) (i : Nat) :
    (finishTyping msgs ts analysis formatted)[i]?
      = msgs[i]?.map (fun m =>
          if m.timestamp = ts then
            { m with content := analysis, formattedContent := some formatted,
                     isTyping := false }
          else m) := by
  unfold finishTyping
  exact List.getElem?_map _ msgs i

theorem finishTyping_length (msgs : List Message) (ts : Nat)
    (analysis formatted : List Char) :
    (finishTyping msgs ts analysis formatted).length = msgs.length := by
  unfold finishTyping
  exact List.length_map msgs _

theorem countTyping_append_one (msgs : List Message) (m : Message) :
    countTyping (msgs ++ [m])
      = countTyping msgs + (if m.isTyping then 1 else 0) := by
  simp only [countTyping, List.countP_append, List.countP_cons, List.countP_nil]
  cases hm : m.isTyping <;> simp [hm]

theorem countTyping_finishTyping_le (msgs : List Message) (ts : Nat)
    (analysis formatted : List Char) :
    countTyping (finishTyping msgs ts analysis formatted) ≤ countTyping msgs := by
  unfold countTyping finishTyping
  rw [List.countP_map]
  apply List.countP_mono_left
  intro m _ hp
  simp only [Function.comp] at hp
  split at hp
  · cases hp
  · exact hp

theorem runTrace_mem_traceStates :
    ∀ (es : List ChatEvent) (s : ChatState), runTrace s es ∈ traceStates s es := by
  intro es
  induction es with
  | nil => intro s; simp [runTrace, traceStates]
  | cons e rest ih =>
    intro s
    rw [runTrace, traceStates]
    exact List.mem_cons_of_mem s (ih (chatStep s e))

theorem filterMap_map_some {α β : Type} (jp : α → Option β) :
    ∀ l : List α, (∀ x ∈ l, (jp x).isSome = true) →
      (l.filterMap jp).map some = l.map jp := by
  intro l
  induction l with
  | nil => intro _; rfl
  | cons x rest ih =>
    intro h
    rcases Option.isSome_iff_exists.mp (h x (by simp)) with ⟨y, hy⟩
    rw [List.filterMap_cons, hy, List.map_cons, List.map_cons, hy,
      ih (fun z hz => h z (by simp [hz]))]

/-! ### Concrete fixtures for scenarios, witnesses and counterexamples -/

/-- The chart of the spec's §8 scenario: a bar chart with one label and one
series. -/
def chart0 : ChartData :=
  { title := ("T").toList, description := ("D").toList, type := .bar,
    labels := [("a").toList],
    datasets := [{ label := ("s").toList, data := .flat [1] }] }

/-- A body parser that accepts every body (a stand-in for `JSON.parse`
succeeding on each block). -/
def jpAll : List Char → Option ChartData := fun _ => some chart0

/-- A body parser that fails exactly on the body `bad` (a stand-in for
`JSON.parse` throwing on one malformed block). -/
def jpExcept : List Char → Option ChartData :=
  fun b => if b = ("bad").toList then none else some chart0

/-- The §8 upload scenario: `sales.csv`, 3 rows, two columns. -/
def salesData : FileData :=
  { file_id := ("f1").toList, filename := ("sales.csv").toList,
    summary := { rows := 3,
                 columns := [("region").toList, ("revenue").toList],
                 data_types := [(("region").toList, ("object").toList),
                                (("revenue").toList, ("int64").toList)] },
    data_preview := [] }

/-- A component state with a chart already published to the slot. -/
def uiWithChart : UIState := { visualizationCharts := [chart0] }

/-- A component state with an active file and no chart. -/
def uiActive : UIState := { activeFileId := some (("f1").toList) }

/-- The initial chat-machine state. -/
def chatState0 : ChatState := {}

/-- A serialized session in which the second reply arrives while the first
reveal is still running: send, reply, send again (the lock was released when
typing started), second reply. -/
def overlapTrace : List ChatEvent :=
  [ .userSend (("q1").toList) 1,
    .response (("a1").toList) (("a1").toList) [] 2,
    .userSend (("q2").toList) 3,
    .response (("a2").toList) (("a2").toList) [] 4 ]

/-- A session in which every reveal completes before the next reply. -/
def goodTrace : List ChatEvent :=
  [ .userSend (("q1").toList) 1,
    .response (("a1").toList) (("a1").toList) [] 2,
    .finalize 2 (("a1").toList) (("a1").toList),
    .userSend (("q2").toList) 3,
    .response (("a2").toList) (("a2").toList) [] 4,
    .finalize 4 (("a2").toList) (("a2").toList) ]

/-- Prose piece of the display-marker counterexample: two backticks. -/
def cexProse : List Char := ("``").toList

/-- Trailing text of the display-marker counterexample: one backtick then
the tag — harmless on its own, an opening fence once block removal glues it
to the prose. -/
def cexTrailing : List Char := ("`chart-data\nhello").toList

/-- A text with exactly one well-formed chart block whose display text
nevertheless contains an opening fence. -/
def cexText : List Char := renderChunks [(cexProse, ("B").toList)] cexTrailing

/-- The idempotence counterexample: backtick runs that the empty-fence
cleanup rewrites into a fresh empty fence. -/
def idemCex : List Char := ("````` ```` ```").toList

/-- A typing placeholder fixture. -/
def msgA : Message :=
  { role := .assistant, content := [], formattedContent := some [],
    timestamp := 5, isTyping := true }

/-! ### Remaining shared helpers -/

theorem parse_eq_filterMap (jp : List Char → Option ChartData) (s : List Char) :
    parseChartDataFromResponse jp s = (extractBlocks s).filterMap jp := by
  simp only [parseChartDataFromResponse]
  split
  next h => rw [List.length_eq_zero.mp h]; rfl
  next h => rw [List.filterMap_map]; rfl

theorem removeChartBlocks_eq_self_of_extract_nil {s : List Char}
    (h : extractBlocks s = []) : removeChartBlocks s = s := by
  cases h1 : findSub chartOpenMarker s with
  | none => exact removeChartBlocks_eq_self_of_none h1
  | some i =>
    cases h2 : findSub chartCloseMarker (s.drop (i + chartOpenMarker.length)) with
    | none => exact removeChartBlocks_eq_self_of_close_none h1 h2
    | some j =>
      rw [extractBlocks_cons_eq h1 h2] at h
      cases h

theorem joinProse_map_fst :
    ∀ (l : List (List Char × List Char)) (t : List Char),
      joinProse l t = (l.map Prod.fst).foldr (fun a acc => a ++ acc) t := by
  intro l
  induction l with
  | nil => intro t; rfl
  | cons pb rest ih =>
    intro t
    obtain ⟨p, b⟩ := pb
    rw [joinProse, ih]
    rfl

/-! ### The claims -/

/-- Claim C10: for every input string, chart extraction is total and never
throws — each block body is parsed inside a guard, failed parses become
`none` entries, and the result filters them out, so the outcome is exactly
`filterMap` of the body parser over the matched bodies, and never longer
than the list of matches. -/
theorem claim_c10_parse_never_throws :
    ∀ (jp : List Char → Option ChartData) (s : List Char),
      parseChartDataFromResponse jp s = (extractBlocks s).filterMap jp
      ∧ (parseChartDataFromResponse jp s).length ≤ (extractBlocks s).length := by
  intro jp s
  refine ⟨parse_eq_filterMap jp s, ?_⟩
  rw [parse_eq_filterMap jp s]
  exact List.length_filterMap_le _ _

/-- Claim C7 (counterexample to the idempotence half): this text contains
zero chart blocks, yet formatting its formatted form removes a further
empty code fence, so normalization is not idempotent. -/
theorem claim_c7_counterexample :
    extractBlocks idemCex = []
    ∧ formatAIResponse (formatAIResponse idemCex) ≠ formatAIResponse idemCex := by
  constructor
  · decide
  · decide

/-- Claim C7 (amended): for raw text with zero chart blocks, parsing
returns no charts and the display text is exactly the whitespace-normalized
input; the idempotence half of the original claim is dropped (see the
counterexample). -/
theorem claim_c7_no_blocks_normalize :
    ∀ (jp : List Char → Option ChartData) (x : List Char),
      extractBlocks x = [] →
      parseChartDataFromResponse jp x = []
      ∧ formatAIResponse x = normalizeSpec x := by
  intro jp x h
  constructor
  · rw [parse_eq_filterMap, h]
    rfl
  · unfold formatAIResponse normalizeSpec
    rw [removeChartBlocks_eq_self_of_extract_nil h]

/-- Claim C7 witness at a concrete no-block input. -/
theorem claim_c7_witness :
    parseChartDataFromResponse jpAll (("a\n\n\n\nb").toList) = []
    ∧ formatAIResponse (("a\n\n\n\nb").toList)
        = normalizeSpec (("a\n\n\n\nb").toList) :=
  claim_c7_no_blocks_normalize jpAll (("a\n\n\n\nb").toList) (by decide)

/-- Claim C2: the typing simulation terminates for any text — the cursor
strictly advances on every tick and the accumulated typing text reaches the
whole text — and the completion callback updates the placeholder in place,
keyed by timestamp: display content set to the full formatted text, content
set to the raw reply, and the revealing flag cleared, leaving both the
length and every other message unchanged. -/
theorem claim_c2_typing_terminates :
    ∀ text : List Char,
      typeLoop text 0 [] = text
      ∧ (∀ index : Nat, index < text.length → index < nextIndex text index)
      ∧ (∀ (msgs : List Message) (ts : Nat) (analysis formatted : List Char),
          (finishTyping msgs ts analysis formatted).length = msgs.length
          ∧ ∀ i : Nat,
              (finishTyping msgs ts analysis formatted)[i]?
                = msgs[i]?.map (fun m =>
                    if m.timestamp = ts then
                      { m with content := analysis,
                               formattedContent := some formatted,
                               isTyping := false }
                    else m)) := by
  intro text
  refine ⟨?_, ?_, ?_⟩
  · have h := typeLoop_eq text 0 []
    simpa using h
  · intro index hlt
    have hc := chunkSizeFor_pos text.length
    simp only [nextIndex]
    omega
  · intro msgs ts analysis formatted
    exact ⟨finishTyping_length msgs ts analysis formatted,
           fun i => finishTyping_getElem msgs ts analysis formatted i⟩

/-- Claim C2 witness at a concrete text and index. -/
theorem claim_c2_witness :
    typeLoop (("Hi.").toList) 0 [] = ("Hi.").toList
    ∧ 0 < nextIndex (("Hi.").toList) 0 :=
  ⟨(claim_c2_typing_terminates (("Hi.").toList)).1,
   (claim_c2_typing_terminates (("Hi.").toList)).2.1 0 (by decide)⟩

/-- Claim C8: the timestamp-keyed store update never raises; with no
matching timestamp it is the identity (length and every message unchanged);
on a match it replaces the message with a merged copy in which the patch
fields (content, display content, revealing flag) overwrite and all other
fields (role, timestamp, charts) are retained, leaving all other messages
unchanged. -/
theorem claim_c8_update_by_timestamp :
    ∀ (msgs : List Message) (ts : Nat) (analysis formatted : List Char),
      (finishTyping msgs ts analysis formatted).length = msgs.length
      ∧ ((∀ m ∈ msgs, m.timestamp ≠ ts) →
          finishTyping msgs ts analysis formatted = msgs)
      ∧ (∀ (i : Nat) (m : Message), msgs[i]? = some m →
          (m.timestamp ≠ ts →
            (finishTyping msgs ts analysis formatted)[i]? = some m)
          ∧ (m.timestamp = ts →
            ∃ m', (finishTyping msgs ts analysis formatted)[i]? = some m'
              ∧ m'.content = analysis
              ∧ m'.formattedContent = some formatted
              ∧ m'.isTyping = false
              ∧ m'.role = m.role
              ∧ m'.timestamp = m.timestamp
              ∧ m'.charts = m.charts)) := by
  intro msgs ts analysis formatted
  refine ⟨finishTyping_length msgs ts analysis formatted, ?_, ?_⟩
  · intro hall
    unfold finishTyping
    conv_rhs => rw [← List.map_id msgs]
    apply List.map_congr_left
    intro m hm
    rw [if_neg (hall m hm)]
    rfl
  · intro i m hm
    constructor
    · intro hne
      rw [finishTyping_getElem, hm]
      simp only [Option.map_some']
      rw [if_neg hne]
    · intro heq
      refine ⟨{ m with content := analysis, formattedContent := some formatted,
                       isTyping := false }, ?_, rfl, rfl, rfl, rfl, rfl, rfl⟩
      rw [finishTyping_getElem, hm]
      simp only [Option.map_some']
      rw [if_pos heq]

/-- Claim C8 witness: updating a nonexistent timestamp is a no-op on a
concrete store. -/
theorem claim_c8_witness :
    finishTyping [msgA] 9 (("x").toList) (("y").toList) = [msgA] :=
  (claim_c8_update_by_timestamp [msgA] 9 (("x").toList) (("y").toList)).2.1
    (by decide)

/-- Claim C3 (counterexample to the marker-freedom half): a text with
exactly one well-formed fenced block — its prose is fence-free, its body is
accepted by the parser — whose display text nevertheless contains the
opening marker, because block removal glues the surrounding prose back
together into a fresh ` ```chart-data ` fence. -/
theorem claim_c3_counterexample :
    hasSub chartOpenMarker cexProse = false
    ∧ hasSub chartCloseMarker (("B").toList) = false
    ∧ jpAll (("B").toList) = some chart0
    ∧ hasSub chartOpenMarker cexTrailing = false
    ∧ parseChartDataFromResponse jpAll cexText = [chart0]
    ∧ hasSub chartOpenMarker (formatAIResponse cexText) = true := by
  refine ⟨by decide, by decide, rfl, by decide, by decide, by decide⟩

/-- Claim C3 (amended): for a raw text built of backtick-free prose pieces
around well-formed fenced bodies (each body free of closing fences and
accepted by the body parser), parsing returns exactly the N charts in source
order, and the display text contains no chart-data block marker.  The
backtick-free restriction on the prose is what the counterexample forces:
prose that carries its own fence fragments can recombine into a marker once
the blocks are cut out. -/
theorem claim_c3_wellformed_blocks :
    ∀ (jp : List Char → Option ChartData)
      (chunks : List (List Char × List Char)) (trailing : List Char),
      (∀ pb ∈ chunks, btChar ∉ pb.1 ∧ hasSub chartCloseMarker pb.2 = false
        ∧ (jp pb.2).isSome = true) →
      btChar ∉ trailing →
      (parseChartDataFromResponse jp (renderChunks chunks trailing)).map some
          = chunks.map (fun pb => jp pb.2)
      ∧ (parseChartDataFromResponse jp (renderChunks chunks trailing)).length
          = chunks.length
      ∧ hasSub chartOpenMarker
          (formatAIResponse (renderChunks chunks trailing)) = false := by
  intro jp chunks trailing hall htr
  have hshape : ∀ pb ∈ chunks, hasSub chartOpenMarker pb.1 = false
      ∧ hasSub chartCloseMarker pb.2 = false :=
    fun pb h => ⟨hasSub_openMarker_false_of_not_mem (hall pb h).1, (hall pb h).2.1⟩
  have htr2 : hasSub chartOpenMarker trailing = false :=
    hasSub_openMarker_false_of_not_mem htr
  have hparse : parseChartDataFromResponse jp (renderChunks chunks trailing)
      = (chunks.map (fun pb => pb.2)).filterMap jp := by
    rw [parse_eq_filterMap, extractBlocks_render chunks trailing hshape htr2]
  have hsome : ∀ x ∈ chunks.map (fun pb => pb.2), (jp x).isSome = true := by
    intro x hx
    rcases List.mem_map.mp hx with ⟨pb, hpb, rfl⟩
    exact (hall pb hpb).2.2
  have hmap : (parseChartDataFromResponse jp (renderChunks chunks trailing)).map some
      = chunks.map (fun pb => jp pb.2) := by
    rw [hparse, filterMap_map_some jp _ hsome, List.map_map]
    rfl
  refine ⟨hmap, ?_, ?_⟩
  · have hlen := congrArg List.length hmap
    simpa using hlen
  · have hJ : removeChartBlocks (renderChunks chunks trailing)
        = joinProse chunks trailing :=
      removeChartBlocks_render chunks trailing hshape htr2
    have hbt : btChar ∉ joinProse chunks trailing :=
      not_mem_joinProse (fun pb h => (hall pb h).1) htr
    have hdisp : btChar ∉ normalizeSpec (joinProse chunks trailing) :=
      btChar_not_mem_normalizeSpec hbt
    unfold formatAIResponse
    rw [hJ]
    exact hasSub_openMarker_false_of_not_mem hdisp

/-- Claim C3 witness at the spec's §8-style scenario text. -/
theorem claim_c3_witness :
    (parseChartDataFromResponse jpAll
        (renderChunks [((("Totals:\n").toList), ("chart body").toList)]
          (("\nDone.").toList))).map some
      = [some chart0]
    ∧ hasSub chartOpenMarker
        (formatAIResponse
          (renderChunks [((("Totals:\n").toList), ("chart body").toList)]
            (("\nDone.").toList))) = false := by
  have h := claim_c3_wellformed_blocks jpAll
    [((("Totals:\n").toList), ("chart body").toList)] (("\nDone.").toList)
    (by decide) (by decide)
  exact ⟨h.1, h.2.2⟩

/-- Claim C6: a malformed fenced block (body rejected by the parser) among
well-formed ones is dropped silently — parsing returns exactly the other
charts in order — and neither the other charts nor the display text depend
on the malformed body at all. -/
theorem claim_c6_malformed_dropped :
    ∀ (jp : List Char → Option ChartData)
      (pre post : List (List Char × List Char)) (pm bm trailing : List Char),
      (∀ pb ∈ pre ++ post, hasSub chartOpenMarker pb.1 = false
        ∧ hasSub chartCloseMarker pb.2 = false ∧ (jp pb.2).isSome = true) →
      hasSub chartOpenMarker pm = false →
      hasSub chartCloseMarker bm = false →
      jp bm = none →
      hasSub chartOpenMarker trailing = false →
      (parseChartDataFromResponse jp
          (renderChunks (pre ++ (pm, bm) :: post) trailing)).map some
        = (pre ++ post).map (fun pb => jp pb.2)
      ∧ (parseChartDataFromResponse jp
          (renderChunks (pre ++ (pm, bm) :: post) trailing)).length
        = pre.length + post.length
      ∧ (∀ bm' : List Char, hasSub chartCloseMarker bm' = false →
          formatAIResponse (renderChunks (pre ++ (pm, bm) :: post) trailing)
            = formatAIResponse (renderChunks (pre ++ (pm, bm') :: post) trailing)) := by
  intro jp pre post pm bm trailing hall hpm hbm hjp htr
  have hpre : ∀ pb ∈ pre, hasSub chartOpenMarker pb.1 = false
      ∧ hasSub chartCloseMarker pb.2 = false ∧ (jp pb.2).isSome = true :=
    fun pb h => hall pb (List.mem_append_left _ h)
  have hpost : ∀ pb ∈ post, hasSub chartOpenMarker pb.1 = false
      ∧ hasSub chartCloseMarker pb.2 = false ∧ (jp pb.2).isSome = true :=
    fun pb h => hall pb (List.mem_append_right _ h)
  have hshape : ∀ pb ∈ pre ++ (pm, bm) :: post,
      hasSub chartOpenMarker pb.1 = false
      ∧ hasSub chartCloseMarker pb.2 = false := by
    intro pb h
    rcases List.mem_append.mp h with h1 | h1
    · exact ⟨(hpre pb h1).1, (hpre pb h1).2.1⟩
    rcases List.mem_cons.mp h1 with rfl | h1
    · exact ⟨hpm, hbm⟩
    · exact ⟨(hpost pb h1).1, (hpost pb h1).2.1⟩
  have hparse : parseChartDataFromResponse jp
      (renderChunks (pre ++ (pm, bm) :: post) trailing)
      = ((pre ++ (pm, bm) :: post).map (fun pb => pb.2)).filterMap jp := by
    rw [parse_eq_filterMap, extractBlocks_render _ trailing hshape htr]
  have hsplit : ((pre ++ (pm, bm) :: post).map (fun pb => pb.2)).filterMap jp
      = (pre.map (fun pb => pb.2)).filterMap jp
        ++ (post.map (fun pb => pb.2)).filterMap jp := by
    rw [List.map_append, List.filterMap_append, List.map_cons,
      List.filterMap_cons, hjp]
  have hmap : (parseChartDataFromResponse jp
      (renderChunks (pre ++ (pm, bm) :: post) trailing)).map some
      = (pre ++ post).map (fun pb => jp pb.2) := by
    rw [hparse, hsplit, List.map_append,
      filterMap_map_some jp _ (by
        intro x hx
        rcases List.mem_map.mp hx with ⟨pb, hpb, rfl⟩
        exact (hpre pb hpb).2.2),
      filterMap_map_some jp _ (by
        intro x hx
        rcases List.mem_map.mp hx with ⟨pb, hpb, rfl⟩
        exact (hpost pb hpb).2.2),
      List.map_append, List.map_map, List.map_map]
    rfl
  refine ⟨hmap, ?_, ?_⟩
  · have hlen := congrArg List.length hmap
    simpa using hlen
  · intro bm2 hbm2
    have hshape2 : ∀ pb ∈ pre ++ (pm, bm2) :: post,
        hasSub chartOpenMarker pb.1 = false
        ∧ hasSub chartCloseMarker pb.2 = false := by
      intro pb h
      rcases List.mem_append.mp h with h1 | h1
      · exact ⟨(hpre pb h1).1, (hpre pb h1).2.1⟩
      rcases List.mem_cons.mp h1 with rfl | h1
      · exact ⟨hpm, hbm2⟩
      · exact ⟨(hpost pb h1).1, (hpost pb h1).2.1⟩
    unfold formatAIResponse
    rw [removeChartBlocks_render _ trailing hshape htr,
      removeChartBlocks_render _ trailing hshape2 htr,
      joinProse_map_fst, joinProse_map_fst]
    simp

/-- Claim C6 witness: one malformed block between prose pieces yields the
single well-formed chart. -/
theorem claim_c6_witness :
    (parseChartDataFromResponse jpExcept
        (renderChunks [((("Intro\n").toList), ("good").toList),
                       ((("\nMid\n").toList), ("bad").toList)]
          (("\nEnd").toList))).length = 1 := by
  have h := claim_c6_malformed_dropped jpExcept
    [((("Intro\n").toList), ("good").toList)] []
    (("\nMid\n").toList) (("bad").toList) (("\nEnd").toList)
    (by decide) (by decide) (by decide) (by decide) (by decide)
  simpa using h.2.1

/-- Claim C1 (counterexample): a session every step of which the serialized
UI permits — the send lock is released as soon as typing starts, so a second
send and its reply can land before the first reveal finishes — ends with two
messages whose revealing flag is set at once. -/
theorem claim_c1_counterexample :
    serializedTrace chatState0 overlapTrace = true
    ∧ countTyping (runTrace chatState0 overlapTrace).messages = 2 := by
  refine ⟨by decide, by decide⟩

/-- Claim C1 (amended): the UI's send serialization alone does not bound
revealing messages to one — see the counterexample — but (i) under the
stricter discipline that every reply is handled only after the previous
reveal finished, every reachable state has at most one revealing message,
and (ii) a reveal completion never corrupts any other message: it rewrites
exactly the messages carrying its timestamp, in place, and leaves every
other message unchanged, even while another reveal is in flight. -/
theorem claim_c1_reveal_overlap :
    (∀ (s : ChatState) (es : List ChatEvent),
      countTyping s.messages ≤ 1 → nonOverlapping s es = true →
      ∀ s' ∈ traceStates s es, countTyping s'.messages ≤ 1)
    ∧ (∀ (s : ChatState) (ts : Nat) (analysis formatted : List Char) (i : Nat),
        (chatStep s (.finalize ts analysis formatted)).messages[i]?
          = s.messages[i]?.map (fun m =>
              if m.timestamp = ts then
                { m with content := analysis,
                         formattedContent := some formatted, isTyping := false }
              else m)) := by
  constructor
  · intro s es
    induction es generalizing s with
    | nil =>
      intro h0 _ s' hs'
      rcases List.mem_singleton.mp hs' with rfl
      exact h0
    | cons e rest ih =>
      intro h0 hd s' hs'
      simp only [nonOverlapping, Bool.and_eq_true] at hd
      rcases List.mem_cons.mp hs' with rfl | hs'
      · exact h0
      refine ih (chatStep s e) ?_ hd.2 _ hs'
      cases e with
      | userSend content ts =>
        simp only [chatStep]
        rw [countTyping_append_one]
        simpa using h0
      | response analysis formatted charts ts =>
        have hz : countTyping s.messages = 0 := by
          have := hd.1
          simpa using this
        simp only [chatStep]
        rw [countTyping_append_one, hz]
        simp
      | finalize ts analysis formatted =>
        simp only [chatStep]
        exact le_trans (countTyping_finishTyping_le s.messages ts analysis formatted) h0
  · intro s ts analysis formatted i
    simp only [chatStep]
    exact finishTyping_getElem s.messages ts analysis formatted i

/-- Claim C1 witness: a disciplined session keeps at most one revealing
message through to its final state. -/
theorem claim_c1_witness :
    countTyping (runTrace chatState0 goodTrace).messages ≤ 1 :=
  claim_c1_reveal_overlap.1 chatState0 goodTrace (by decide) (by decide)
    (runTrace chatState0 goodTrace) (runTrace_mem_traceStates goodTrace chatState0)

/-- Claim C4 (counterexample): a successful upload does not clear a
previously published visualization slot — the handler leaves it exactly as
it was. -/
theorem claim_c4_counterexample :
    (handleFileUpload uiWithChart (("sales.csv").toList) 7
        (.ok salesData)).state.visualizationCharts = [chart0]
    ∧ ([chart0] : List ChartData) ≠ [] := by
  refine ⟨by decide, by decide⟩

/-- Claim C4 (amended): after every successful upload the active dataset is
replaced wholesale, the conversation is reset to exactly one assistant
welcome message, and the visualization slot is left unchanged rather than
cleared (in the UI the upload control is only offered before any dataset is
active, when the slot is still empty).  For the `sales.csv` scenario the
welcome text contains the digits 3 and 2 and the stored column names equal
`region, revenue` in order. -/
theorem claim_c4_upload_success :
    ∀ (s : UIState) (fileName : List Char) (ts : Nat) (data : FileData),
      validUploadName fileName = true →
      (handleFileUpload s fileName ts (.ok data)).state.fileData = some data
      ∧ (handleFileUpload s fileName ts (.ok data)).state.activeFileId
          = some data.file_id
      ∧ (handleFileUpload s fileName ts (.ok data)).state.messages
          = [{ role := .assistant, content := welcomeMessage data,
               formattedContent := some (welcomeMessage data), timestamp := ts }]
      ∧ (handleFileUpload s fileName ts (.ok data)).state.visualizationCharts
          = s.visualizationCharts
      ∧ ('3' ∈ welcomeMessage salesData
         ∧ '2' ∈ welcomeMessage salesData
         ∧ salesData.summary.columns = [("region").toList, ("revenue").toList]) := by
  intro s fileName ts data hv
  unfold handleFileUpload
  rw [if_pos hv]
  exact ⟨rfl, rfl, rfl, rfl, by decide, by decide, by decide⟩

/-- Claim C4 witness at the `sales.csv` scenario. -/
theorem claim_c4_witness :
    (handleFileUpload uiWithChart (("sales.csv").toList) 7
        (.ok salesData)).state.fileData = some salesData :=
  (claim_c4_upload_success uiWithChart (("sales.csv").toList) 7 salesData
    (by decide)).1

/-- Claim C5 (counterexample): a whitespace-only message is rejected before
any network call, but silently — no toast is fired, contradicting the claim
that every validation rejection is reported via a transient notification. -/
theorem claim_c5_counterexample :
    (sendMessagePre uiActive ((" ").toList) 0).networkCalled = false
    ∧ (sendMessagePre uiActive ((" ").toList) 0).toasts = [] := by
  refine ⟨by decide, by decide⟩

/-- Claim C5 (amended): both validations run before any network call and
leave the state untouched; the invalid-file rejection is reported via a
transient error toast, while the blank-message rejection is silent (the UI
relies on the disabled send button instead). -/
theorem claim_c5_validation_before_network :
    ∀ (s : UIState) (fileName : List Char) (ts : Nat)
      (result : Except (List Char) FileData) (txt : List Char) (ts2 : Nat),
      (validUploadName fileName = false →
        (handleFileUpload s fileName ts result).networkCalled = false
        ∧ (handleFileUpload s fileName ts result).state = s
        ∧ (handleFileUpload s fileName ts result).toasts
            = [.error uploadInvalidMsg])
      ∧ (trimWs txt = [] →
        (sendMessagePre s txt ts2).networkCalled = false
        ∧ (sendMessagePre s txt ts2).state = s
        ∧ (sendMessagePre s txt ts2).toasts = []) := by
  intro s fileName ts result txt ts2
  constructor
  · intro hv
    unfold handleFileUpload
    rw [if_neg (by simp [hv])]
    exact ⟨rfl, rfl, rfl⟩
  · intro ht
    unfold sendMessagePre
    rw [if_pos (Or.inl ht)]
    exact ⟨rfl, rfl, rfl⟩

/-- Claim C5 witness at a concrete bad extension and blank message. -/
theorem claim_c5_witness :
    (handleFileUpload uiActive (("notes.txt").toList) 0
        (.ok salesData)).networkCalled = false
    ∧ (sendMessagePre uiActive (("  ").toList) 0).networkCalled = false :=
  ⟨((claim_c5_validation_before_network uiActive (("notes.txt").toList) 0
      (.ok salesData) (("  ").toList) 0).1 (by decide)).1,
   ((claim_c5_validation_before_network uiActive (("notes.txt").toList) 0
      (.ok salesData) (("  ").toList) 0).2 (by decide)).1⟩

/-- Claim C9: an upload that fails after validation leaves the dataset, the
conversation and the whole component state untouched — no partial
replacement — and surfaces exactly the upload-failure error toast. -/
theorem claim_c9_upload_failure_frame :
    ∀ (s : UIState) (fileName : List Char) (ts : Nat) (err : List Char),
      validUploadName fileName = true →
      (handleFileUpload s fileName ts (.error err)).state = s
      ∧ (handleFileUpload s fileName ts (.error err)).networkCalled = true
      ∧ (handleFileUpload s fileName ts (.error err)).toasts
          = [.error uploadFailedMsg] := by
  intro s fileName ts err hv
  unfold handleFileUpload
  rw [if_pos hv]
  exact ⟨rfl, rfl, rfl⟩

/-- Claim C9 witness at a concrete failing upload. -/
theorem claim_c9_witness :
    (handleFileUpload uiWithChart (("data.xls").toList) 3
        (.error (("boom").toList))).state = uiWithChart :=
  (claim_c9_upload_failure_frame uiWithChart (("data.xls").toList) 3
    (("boom").toList) (by decide)).1

end Databot
